import Mathlib

/-!
Shallow embedding of `trainer_yolo/boxutils.py`.

Tensor computations in the source are elementwise over fixed shapes, with
no cross-cell data flow, so they are embedded here as per-cell / per-slot
functions over `ℚ` (the source's float arithmetic, modelled exactly).
Lists stand for the `rois_n`-sized axis; grid cells are addressed by the
pair of indices `(i, j)` (row, column) of the `[grid_n, grid_n]` axes.
-/

/-- A rectangle `[x1, y1, x2, y2]`, as used for tiles and raw ROIs. -/
structure Rect where
  x1 : ℚ
  y1 : ℚ
  x2 : ℚ
  y2 : ℚ
deriving DecidableEq, Repr

/-- A center-form ROI `[cx, cy, w]` (square canonicalization). -/
structure CRoi where
  cx : ℚ
  cy : ℚ
  w : ℚ
deriving DecidableEq, Repr

/-- `one_d_intersect(px1, px2, qx1, qx2)` (boxutils.py lines 16-34):
returns `(inter, inter_x1, inter_w)`. -/
def one_d_intersect (px1 px2 qx1 qx2 : ℚ) : Bool × ℚ × ℚ :=
  let interA := decide (px1 > qx1)
  let interB := decide (px2 > qx1)
  let interC := decide (px2 > qx2)
  let interD := decide (qx2 > px1)
  let inter := interB && interD
  let inter_x1 := if (!interA && interB) then qx1 else px1
  let inter_x2 := if (interC && interD) then qx2 else px2
  let inter_w0 := inter_x2 - inter_x1
  let inter_w := if inter then inter_w0 else 0
  (inter, inter_x1, inter_w)

/-- One candidate of `boxintersect(primeroi, rois, min_intersect)`
(boxutils.py lines 36-53): the boolean computed for a single roi `r`
against the prime roi `p`. -/
def boxintersect_one (p r : Rect) (min_intersect : ℚ) : Bool :=
  let resx := one_d_intersect p.x1 p.x2 r.x1 r.x2
  let resy := one_d_intersect p.y1 p.y2 r.y1 r.y2
  let inter_area := resx.2.2 * resy.2.2
  let parea := (p.x2 - p.x1) * (p.y2 - p.y1)
  let area := (r.x2 - r.x1) * (r.y2 - r.y1)
  let min_areas := min area parea
  (resx.1 && resy.1) && decide (inter_area ≥ min_areas * min_intersect)

/-- `boxintersect` over the whole roi list (elementwise on axis 0). -/
def boxintersect (p : Rect) (rois : List Rect) (min_intersect : ℚ) : List Bool :=
  rois.map (fun r => boxintersect_one p r min_intersect)

/-- `gen_grid(grid_n)` (lines 55-64): cell `(i, j)` of the unit grid holds
`(cell_x, cell_y) = (j, i)` (the `cell_y` sheet is the transpose). -/
def gen_grid (i j : ℕ) : ℚ × ℚ :=
  ((j : ℚ), (i : ℚ))

/-- `size_and_move_grid(grid, cell_w, origin)` (lines 66-67). -/
def size_and_move_grid (g : ℚ × ℚ) (cell_w : ℚ) (origin : ℚ × ℚ) : ℚ × ℚ :=
  (g.1 * cell_w + origin.1, g.2 * cell_w + origin.2)

/-- The cell width computed by `gen_grid_for_tile` (line 108). -/
def tile_cell_w (tile : Rect) (grid_n : ℕ) : ℚ :=
  (tile.x2 - tile.x1) / (grid_n : ℚ)

/-- `gen_grid_for_tile(tile, grid_n)` (lines 106-111): origin of cell `(i, j)`. -/
def gen_grid_for_tile (tile : Rect) (grid_n : ℕ) (i j : ℕ) : ℚ × ℚ :=
  size_and_move_grid (gen_grid i j) (tile_cell_w tile grid_n) (tile.x1, tile.y1)

/-- `cxyw_rois` (lines 69-76), elementwise on one rectangle. -/
def cxyw_rois (r : Rect) : CRoi :=
  ⟨(r.x1 + r.x2) / 2, (r.y1 + r.y2) / 2, r.x2 - r.x1⟩

/-- `center_in_grid_cell(grid, grid_n, cell_w, rois, expand)` (lines 86-95),
for one cell with origin `(gx, gy)` and one roi. -/
def center_in_grid_cell_one (gx gy cell_w : ℚ) (roi : CRoi) (expand : ℚ) : Bool :=
  let has_center_x := decide (roi.cx ≥ gx - (expand - 1) * cell_w) &&
                      decide (roi.cx < gx + expand * cell_w)
  let has_center_y := decide (roi.cy ≥ gy - (expand - 1) * cell_w) &&
                      decide (roi.cy < gy + expand * cell_w)
  has_center_x && has_center_y

/-- Index of the first occurrence of the maximum of a list (`tf.argmax`
semantics on axis 2: ties resolve to the lowest index; `0` on `[]`). -/
def argmaxIdx : List ℚ → ℕ
  | [] => 0
  | [_] => 0
  | x :: y :: xs =>
    let j := argmaxIdx (y :: xs)
    if x < (y :: xs).getD j 0 then j + 1 else 0

/-- Index of the first occurrence of the minimum of a list (`tf.argmin`
semantics: ties resolve to the lowest index; `0` on `[]`). -/
def argminIdx : List ℚ → ℕ
  | [] => 0
  | [_] => 0
  | x :: y :: xs =>
    let j := argminIdx (y :: xs)
    if (y :: xs).getD j 0 < x then j + 1 else 0

/-- Comparator selector of `n_largest_rois_in_cell` (lines 144-152). -/
inductive Comparator where
  | largest_w
  | furthest_from_center
  | closest_to_center
deriving DecidableEq, Repr

/-- Per-cell scores of one extraction round (lines 144-152): for
`largest_w` and `furthest_from_center` the mask is multiplied in as a
`0/1` float; for `closest_to_center` masked-out entries are replaced by
the sentinel `1000`. `(gcx, gcy)` is the cell center. -/
def cell_scores (comp : Comparator) (gcx gcy : ℚ) (rois : List CRoi)
    (mask : List Bool) : List ℚ :=
  match comp with
  | .largest_w =>
    (mask.zip rois).map (fun mr => (if mr.1 then (1 : ℚ) else 0) * mr.2.w)
  | .furthest_from_center =>
    (mask.zip rois).map (fun mr =>
      (if mr.1 then (1 : ℚ) else 0) * (|mr.2.cx - gcx| + |mr.2.cy - gcy|))
  | .closest_to_center =>
    (mask.zip rois).map (fun mr =>
      if mr.1 then |mr.2.cx - gcx| + |mr.2.cy - gcy| else 1000)

/-- The winning roi index of one extraction round for one cell
(`largest_indices`, lines 144-152): argmax of the scores, except for
`closest_to_center` which takes the argmin. -/
def cell_round (comp : Comparator) (gcx gcy : ℚ) (rois : List CRoi)
    (mask : List Bool) : ℕ :=
  match comp with
  | .closest_to_center => argminIdx (cell_scores comp gcx gcy rois mask)
  | _ => argmaxIdx (cell_scores comp gcx gcy rois mask)

/-- The sequence of `(mask, winning index)` pairs over the `n` extraction
rounds of `n_largest_rois_in_cell` for one cell (loop lines 142-167):
after each round the winner is cleared from the containment mask
(`one_hot` zero mask, lines 166-167). -/
def selection_rounds (comp : Comparator) (gcx gcy : ℚ) (rois : List CRoi) :
    List Bool → ℕ → List (List Bool × ℕ)
  | _, 0 => []
  | mask, n + 1 =>
    let idx := cell_round comp gcx gcy rois mask
    (mask, idx) :: selection_rounds comp gcx gcy rois (mask.set idx false) n

/-- Cell center `(grid + grid + cell_w) / 2` (line 134), for cell `(i, j)`. -/
def cell_center (tile : Rect) (grid_n : ℕ) (i j : ℕ) : ℚ × ℚ :=
  let g := gen_grid_for_tile tile grid_n i j
  let cw := tile_cell_w tile grid_n
  ((g.1 + g.1 + cw) / 2, (g.2 + g.2 + cw) / 2)

/-- The containment mask `has_center` (line 132) of cell `(i, j)`, one
boolean per roi. -/
def cell_mask (tile : Rect) (rects : List Rect) (grid_n : ℕ) (expand : ℚ)
    (i j : ℕ) : List Bool :=
  let g := gen_grid_for_tile tile grid_n i j
  let cw := tile_cell_w tile grid_n
  (rects.map cxyw_rois).map (fun r => center_in_grid_cell_one g.1 g.2 cw r expand)

/-- The extraction rounds of `n_largest_rois_in_cell` at cell `(i, j)`. -/
def cell_rounds (tile : Rect) (rects : List Rect) (grid_n n : ℕ)
    (comp : Comparator) (expand : ℚ) (i j : ℕ) : List (List Bool × ℕ) :=
  let c := cell_center tile grid_n i j
  selection_rounds comp c.1 c.2 (rects.map cxyw_rois)
    (cell_mask tile rects grid_n expand i j) n

/-- `n_largest_rois_in_cell(tile, rois, rois_n, grid_n, n, comparator,
expand)` (lines 123-169) at cell `(i, j)`: the `n` winners in selection
order; a round whose cell mask has no true entry yields the zero sentinel
(`tf.where(any_roi_in_cell, ..., zeros)`, lines 143 and 161-163). -/
def n_largest_rois_in_cell (tile : Rect) (rects : List Rect) (grid_n n : ℕ)
    (comp : Comparator) (expand : ℚ) (i j : ℕ) : List CRoi :=
  let rois := rects.map cxyw_rois
  (cell_rounds tile rects grid_n n comp expand i j).map (fun mi =>
    if mi.1.any id then rois.getD mi.2 ⟨0, 0, 0⟩ else ⟨0, 0, 0⟩)

/-- `make_rois_tile_cell_relative(tile, tiled_rois, grid_n)` (lines
171-195), for the roi slot `tr` of cell `(i, j)`: cell-center-relative
`x, y` (lines 186-187), tile-relative `w` (line 188), with zero-width
slots passing `tr_x` through as both coordinates (lines 190-192; note the
source writes `tr_x`, not `tr_y`, in the `ctr_y` branch). -/
def make_rois_tile_cell_relative_one (tile : Rect) (grid_n : ℕ) (i j : ℕ)
    (tr : CRoi) : CRoi :=
  let cw := tile_cell_w tile grid_n
  let tile_w := cw * (grid_n : ℚ)
  let gc := cell_center tile grid_n i j
  let ctr_x0 := (tr.cx - gc.1) / (cw / 2)
  let ctr_y0 := (tr.cy - gc.2) / (cw / 2)
  let ctr_w := tr.w / tile_w
  let ctr_x := if tr.w > 0 then ctr_x0 else tr.cx
  let ctr_y := if tr.w > 0 then ctr_y0 else tr.cx
  ⟨ctr_x, ctr_y, ctr_w⟩

/-- `make_rois_tile_cell_relative` over the slot list of cell `(i, j)`. -/
def make_rois_tile_cell_relative (tile : Rect) (grid_n : ℕ)
    (tiled : List CRoi) (i j : ℕ) : List CRoi :=
  tiled.map (make_rois_tile_cell_relative_one tile grid_n i j)

/-- `n_largest_rois_in_cell_relative` (lines 198-201) at cell `(i, j)`. -/
def n_largest_rois_in_cell_relative (tile : Rect) (rects : List Rect)
    (grid_n n : ℕ) (comp : Comparator) (expand : ℚ) (i j : ℕ) : List CRoi :=
  make_rois_tile_cell_relative tile grid_n
    (n_largest_rois_in_cell tile rects grid_n n comp expand i j) i j

/-- `grid_cell_to_tile_coords(rois, grid_n, tile_size)` (lines 268-304)
for the roi slot `roi` of cell `(i, j)`: returns `(y1, x1, y2, x2)`
relative to a zero-origin tile of width `tile_size`. -/
def grid_cell_to_tile_coords_one (grid_n : ℕ) (tile_size : ℚ) (i j : ℕ)
    (roi : CRoi) : ℚ × ℚ × ℚ × ℚ :=
  let cell_w := tile_size / (grid_n : ℚ)
  let g := gen_grid i j
  let gx := g.1 * cell_w
  let gy := g.2 * cell_w
  let gr_cx := (gx + gx + cell_w) / 2
  let gr_cy := (gy + gy + cell_w) / 2
  let roi_cx := roi.cx * cell_w / 2 + gr_cx
  let roi_cy := roi.cy * cell_w / 2 + gr_cy
  let roi_w := roi.w * tile_size
  (roi_cy - roi_w / 2, roi_cx - roi_w / 2, roi_cy + roi_w / 2, roi_cx + roi_w / 2)

/-- The periphery-width zeroing of the merge step (lines 258-261): the
periphery roi `p` keeps its coordinates, and its width is zeroed when it
equals the width of the normal roi `r` in the same slot
(`roi_exclude = tf.equal(rw, pw)` is elementwise per slot). -/
def dedup_periphery (r p : CRoi) : CRoi :=
  ⟨p.cx, p.cy, if r.w = p.w then 0 else p.w⟩

/-- `roi_select` (lines 221-252): the 16-case decision table over the
nonzero-width pattern of `(r1, r2, p1, p2)`, embedded as the source's
sequential `tf.where` chain (later matches override earlier ones; the
patterns are mutually exclusive so exactly one applies). -/
def roi_select (r1 r2 p1 p2 : CRoi) : CRoi × CRoi :=
  let a0 := (r1, r1)
  let a1 := (r1, r2)
  let a2 := (p1, p1)
  let a3 := (p1, p2)
  let a4 := (r1, p1)
  let a5 := (p2, p2)
  let a6 := (r1, p2)
  let a7 := (r2, r2)
  let a8 := (r2, p2)
  let a9 := (r2, p1)
  let nz : Bool × Bool × Bool × Bool :=
    (decide (r1.w > 0), decide (r2.w > 0), decide (p1.w > 0), decide (p2.w > 0))
  let zero : CRoi × CRoi := (⟨0, 0, 0⟩, ⟨0, 0, 0⟩)
  let r := if nz = (false, false, false, false) then a0 else zero
  let r := if nz = (false, false, false, true) then a5 else r
  let r := if nz = (false, false, true, false) then a2 else r
  let r := if nz = (false, false, true, true) then a3 else r
  let r := if nz = (false, true, false, false) then a7 else r
  let r := if nz = (false, true, false, true) then a8 else r
  let r := if nz = (false, true, true, false) then a9 else r
  let r := if nz = (false, true, true, true) then a9 else r
  let r := if nz = (true, false, false, false) then a0 else r
  let r := if nz = (true, false, false, true) then a6 else r
  let r := if nz = (true, false, true, false) then a4 else r
  let r := if nz = (true, false, true, true) then a4 else r
  let r := if nz = (true, true, false, false) then a1 else r
  let r := if nz = (true, true, false, true) then a1 else r
  let r := if nz = (true, true, true, false) then a1 else r
  let r := if nz = (true, true, true, true) then a1 else r
  r

/-- The merge step of `n_experimental_roi_selection_strategy` (lines
254-264) for one cell: the two normal slots and the two periphery slots
are deduplicated slotwise, then fed to the decision table. -/
def merge_cell (nr pr : List CRoi) : CRoi × CRoi :=
  let z : CRoi := ⟨0, 0, 0⟩
  let r1 := nr.getD 0 z
  let r2 := nr.getD 1 z
  let p1 := dedup_periphery r1 (pr.getD 0 z)
  let p2 := dedup_periphery r2 (pr.getD 1 z)
  roi_select r1 r2 p1 p2

/-- `n_experimental_roi_selection_strategy(tile, rois, rois_n, grid_n, n)`
(lines 204-265). The `assert n == 2` (line 205) is modelled as `none`;
for `n = 2` the per-cell merge of the normal (`expand=1.0`) and periphery
(`expand=1.3`) closest-to-center selections is returned. -/
def n_experimental_roi_selection_strategy (tile : Rect) (rects : List Rect)
    (grid_n n : ℕ) : Option (ℕ → ℕ → CRoi × CRoi) :=
  if n = 2 then
    some (fun i j =>
      merge_cell
        (n_largest_rois_in_cell_relative tile rects grid_n 2
          .closest_to_center 1 i j)
        (n_largest_rois_in_cell_relative tile rects grid_n 2
          .closest_to_center (13/10) i j))
  else none

/-! ## Claim theorems -/

/-- C4 counterexample: for the degenerate interval `p = [5,5]` against
`q = [0,10]` the preconditions `p1 ≤ p2`, `q1 ≤ q2` hold and neither
`p2 ≤ q1` nor `q2 ≤ p1`, yet the returned length is `0`, not strictly
positive (and `does_intersect` is `true`). -/
theorem one_d_intersect_zero_length_cex :
    (5 : ℚ) ≤ 5 ∧ (0 : ℚ) ≤ 10 ∧ ¬((5 : ℚ) ≤ 0 ∨ (10 : ℚ) ≤ 5) ∧
    (one_d_intersect 5 5 0 10).1 = true ∧
    ¬(0 < (one_d_intersect 5 5 0 10).2.2) := by
  norm_num [one_d_intersect]

/-- C4 (amended): for `p1 ≤ p2` and `q1 ≤ q2`, `one_d_intersect` returns
`does_intersect = false` and length `0` whenever `p2 ≤ q1` or `q2 ≤ p1`;
otherwise it returns `does_intersect = true`, start `max p1 q1` and length
`min p2 q2 - max p1 q1`, which is nonnegative, and strictly positive
provided both intervals are non-degenerate (`p1 < p2` and `q1 < q2`). -/
theorem one_d_intersect_spec (p1 p2 q1 q2 : ℚ) (hp : p1 ≤ p2) (hq : q1 ≤ q2) :
    ((p2 ≤ q1 ∨ q2 ≤ p1) →
      (one_d_intersect p1 p2 q1 q2).1 = false ∧
      (one_d_intersect p1 p2 q1 q2).2.2 = 0) ∧
    (q1 < p2 → p1 < q2 →
      (one_d_intersect p1 p2 q1 q2).1 = true ∧
      (one_d_intersect p1 p2 q1 q2).2.1 = max p1 q1 ∧
      (one_d_intersect p1 p2 q1 q2).2.2 = min p2 q2 - max p1 q1 ∧
      0 ≤ min p2 q2 - max p1 q1 ∧
      (p1 < p2 → q1 < q2 → 0 < min p2 q2 - max p1 q1)) := by
  constructor
  · intro h
    have hni : ¬(q1 < p2 ∧ p1 < q2) := by
      rcases h with h | h
      · exact fun hc => absurd hc.1 (not_lt.mpr h)
      · exact fun hc => absurd hc.2 (not_lt.mpr h)
    simp only [one_d_intersect, gt_iff_lt]
    rw [show (decide (q1 < p2) && decide (p1 < q2)) = false by
      rcases not_and_or.mp hni with h | h <;> simp [h]]
    simp
  · intro hb hd
    simp only [one_d_intersect, gt_iff_lt]
    rw [show decide (q1 < p2) = true by simp [hb],
        show decide (p1 < q2) = true by simp [hd]]
    simp only [Bool.and_true, Bool.true_and, Bool.not_false, if_true]
    refine ⟨by trivial, ?_, ?_, ?_, ?_⟩
    · by_cases ha : q1 < p1
      · simp [ha, max_eq_left ha.le]
      · simp [ha, max_eq_right (not_lt.mp ha)]
    · by_cases ha : q1 < p1 <;> by_cases hc : q2 < p2
      · simp [ha, hc, max_eq_left ha.le, min_eq_right hc.le]
      · simp [ha, hc, max_eq_left ha.le, min_eq_left (not_lt.mp hc)]
      · simp [ha, hc, max_eq_right (not_lt.mp ha), min_eq_right hc.le]
      · simp [ha, hc, max_eq_right (not_lt.mp ha), min_eq_left (not_lt.mp hc)]
    · have h1 : max p1 q1 ≤ p2 := max_le hp hb.le
      have h2 : max p1 q1 ≤ q2 := max_le hd.le hq
      have := le_min h1 h2
      linarith
    · intro hp' hq'
      have h1 : max p1 q1 < p2 := max_lt hp' hb
      have h2 : max p1 q1 < q2 := max_lt hd hq'
      have := lt_min h1 h2
      linarith

/-- C4 witness: the intersecting pair `p = [0,2]`, `q = [1,3]` yields
`does_intersect = true`, start `1` and length `1`. -/
theorem one_d_intersect_spec_witness :
    (one_d_intersect 0 2 1 3).1 = true ∧
    (one_d_intersect 0 2 1 3).2.1 = max 0 1 ∧
    (one_d_intersect 0 2 1 3).2.2 = min 2 3 - max 0 1 := by
  have h := (one_d_intersect_spec 0 2 1 3 (by norm_num) (by norm_num)).2
    (by norm_num) (by norm_num)
  exact ⟨h.1, h.2.1, h.2.2.1⟩

/-- C5 counterexample: the degenerate rectangle `(0,0,0,0)` satisfies
`x2 ≥ x1` and `y2 ≥ y1`, yet `boxintersect(r, [r], 1)` is `[false]`,
not `[true]`. -/
theorem boxintersect_self_degenerate_cex :
    (0 : ℚ) ≤ 0 ∧
    boxintersect ⟨0, 0, 0, 0⟩ [⟨0, 0, 0, 0⟩] 1 ≠ [true] := by
  norm_num [boxintersect, boxintersect_one, one_d_intersect]

/-- C5 (amended): for every rectangle with positive extent on both axes
(`x1 < x2` and `y1 < y2`), `boxintersect(r, [r], min_intersect = 1)`
returns `[true]`. -/
theorem boxintersect_self_full_overlap (r : Rect)
    (hx : r.x1 < r.x2) (hy : r.y1 < r.y2) :
    boxintersect r [r] 1 = [true] := by
  simp only [boxintersect, boxintersect_one, one_d_intersect, List.map_cons,
    List.map_nil, gt_iff_lt]
  rw [show decide (r.x1 < r.x2) = true by simp [hx],
      show decide (r.y1 < r.y2) = true by simp [hy],
      show decide (r.x1 < r.x1) = false by simp,
      show decide (r.x2 < r.x2) = false by simp,
      show decide (r.y1 < r.y1) = false by simp,
      show decide (r.y2 < r.y2) = false by simp]
  simp [min_self]

/-- C5 witness: the unit square self-intersects at full overlap. -/
theorem boxintersect_self_full_overlap_witness :
    boxintersect ⟨0, 0, 1, 1⟩ [⟨0, 0, 1, 1⟩] 1 = [true] :=
  boxintersect_self_full_overlap ⟨0, 0, 1, 1⟩ (by norm_num) (by norm_num)

/-- C7: in `make_rois_tile_cell_relative`, a slot with zero width keeps
`ctr_w = 0` and passes the pre-normalization `x` value through as both
`ctr_x` and `ctr_y`; a slot with positive width is mapped to
`((x - cell_center_x) / (cell_w/2), (y - cell_center_y) / (cell_w/2),
w / tile_w)` with `tile_w = cell_w * grid_n`. -/
theorem make_relative_slot_spec (tile : Rect) (grid_n i j : ℕ) (tr : CRoi) :
    (tr.w = 0 →
      make_rois_tile_cell_relative_one tile grid_n i j tr = ⟨tr.cx, tr.cx, 0⟩) ∧
    (0 < tr.w →
      make_rois_tile_cell_relative_one tile grid_n i j tr =
        ⟨(tr.cx - (cell_center tile grid_n i j).1) / (tile_cell_w tile grid_n / 2),
         (tr.cy - (cell_center tile grid_n i j).2) / (tile_cell_w tile grid_n / 2),
         tr.w / (tile_cell_w tile grid_n * (grid_n : ℚ))⟩) := by
  constructor
  · intro h
    simp [make_rois_tile_cell_relative_one, h]
  · intro h
    simp [make_rois_tile_cell_relative_one, h]

/-- C7 witness: on tile `(0,0,10,10)` with `grid_n = 2`, cell `(0,0)`
(center `(2.5, 2.5)`, `cell_w = 5`): the zero-width slot `(3,4,0)` maps to
`(3,3,0)`, and the slot `(3,4,2)` maps to `(1/5, 3/5, 1/5)`. -/
theorem make_relative_slot_spec_witness :
    make_rois_tile_cell_relative_one ⟨0, 0, 10, 10⟩ 2 0 0 ⟨3, 4, 0⟩ = ⟨3, 3, 0⟩ ∧
    make_rois_tile_cell_relative_one ⟨0, 0, 10, 10⟩ 2 0 0 ⟨3, 4, 2⟩ =
      ⟨1/5, 3/5, 1/5⟩ := by
  constructor
  · exact (make_relative_slot_spec ⟨0, 0, 10, 10⟩ 2 0 0 ⟨3, 4, 0⟩).1 rfl
  · have h := (make_relative_slot_spec ⟨0, 0, 10, 10⟩ 2 0 0 ⟨3, 4, 2⟩).2 (by norm_num)
    rw [h]
    norm_num [cell_center, tile_cell_w, gen_grid_for_tile, gen_grid,
      size_and_move_grid]

/-- C8: the dual-strategy merger fails (returns `none`, modelling the
`assert n == 2`) exactly when the per-cell slot count `n` differs from 2;
for `n = 2` it succeeds. -/
theorem experimental_strategy_requires_two_slots (tile : Rect)
    (rects : List Rect) (grid_n n : ℕ) :
    (n_experimental_roi_selection_strategy tile rects grid_n n).isSome = true ↔
      n = 2 := by
  unfold n_experimental_roi_selection_strategy
  split <;> simp_all

/-- C2 counterexample: in the merge step, a periphery ROI whose width
equals the width of the normal ROI in the *other* slot is not zeroed:
with normal slots `(0,0,3), (0,0,0)` and periphery slots
`(0,0,0), (2,2,3)`, the second periphery ROI's width `3` equals normal
slot 1's width `3`, yet it keeps width `3` after deduplication and is
even credited to the merged output (case `a6 = (r1, p2)`). -/
theorem merge_dedup_cross_slot_cex :
    (dedup_periphery ⟨0, 0, 0⟩ ⟨2, 2, 3⟩).w = 3 ∧
    merge_cell [⟨0, 0, 3⟩, ⟨0, 0, 0⟩] [⟨0, 0, 0⟩, ⟨2, 2, 3⟩] =
      (⟨0, 0, 3⟩, ⟨2, 2, 3⟩) := by
  constructor
  · norm_num [dedup_periphery]
  · norm_num [merge_cell, dedup_periphery, roi_select, List.getD]

/-- C2 (amended): the merge step feeds the case table the slotwise
deduplicated periphery ROIs: a periphery ROI's width is zeroed exactly
when it equals the width of the normal-selection ROI *in the same slot*
(the `tf.equal(rw, pw)` comparison is elementwise per slot, not against
both normal slots). -/
theorem merge_dedup_same_slot (nr pr : List CRoi) :
    merge_cell nr pr =
      roi_select (nr.getD 0 ⟨0, 0, 0⟩) (nr.getD 1 ⟨0, 0, 0⟩)
        (dedup_periphery (nr.getD 0 ⟨0, 0, 0⟩) (pr.getD 0 ⟨0, 0, 0⟩))
        (dedup_periphery (nr.getD 1 ⟨0, 0, 0⟩) (pr.getD 1 ⟨0, 0, 0⟩)) ∧
    ((pr.getD 0 ⟨0, 0, 0⟩).w = (nr.getD 0 ⟨0, 0, 0⟩).w →
      (dedup_periphery (nr.getD 0 ⟨0, 0, 0⟩) (pr.getD 0 ⟨0, 0, 0⟩)).w = 0) ∧
    ((pr.getD 1 ⟨0, 0, 0⟩).w = (nr.getD 1 ⟨0, 0, 0⟩).w →
      (dedup_periphery (nr.getD 1 ⟨0, 0, 0⟩) (pr.getD 1 ⟨0, 0, 0⟩)).w = 0) := by
  refine ⟨rfl, fun h => ?_, fun h => ?_⟩ <;>
    · simp only [dedup_periphery]
      rw [if_pos h.symm]

/-- C2 witness: with equal same-slot widths the periphery width is
zeroed. -/
theorem merge_dedup_same_slot_witness :
    (dedup_periphery ([(⟨0, 0, 3⟩ : CRoi), ⟨0, 0, 0⟩].getD 0 ⟨0, 0, 0⟩)
      ([(⟨1, 1, 3⟩ : CRoi), ⟨0, 0, 0⟩].getD 0 ⟨0, 0, 0⟩)).w = 0 :=
  (merge_dedup_same_slot [⟨0, 0, 3⟩, ⟨0, 0, 0⟩] [⟨1, 1, 3⟩, ⟨0, 0, 0⟩]).2.1 rfl

/-- C1: normalizing a positive-width ROI of a cell of the zero-origin
square tile `(0, 0, tile_size, tile_size)` with
`make_rois_tile_cell_relative` and denormalizing with
`grid_cell_to_tile_coords` (same `tile_size` and `grid_n`) recovers the
original center-form ROI's corners `(cy - w/2, cx - w/2, cy + w/2,
cx + w/2)` exactly. -/
theorem grid_roundtrip_recovers_corners (tile_size : ℚ) (grid_n i j : ℕ)
    (roi : CRoi) (hT : 0 < tile_size) (hn : 0 < grid_n) (hw : 0 < roi.w) :
    grid_cell_to_tile_coords_one grid_n tile_size i j
      (make_rois_tile_cell_relative_one ⟨0, 0, tile_size, tile_size⟩ grid_n i j roi) =
    (roi.cy - roi.w / 2, roi.cx - roi.w / 2,
     roi.cy + roi.w / 2, roi.cx + roi.w / 2) := by
  have hn0 : (grid_n : ℚ) ≠ 0 := Nat.cast_ne_zero.mpr hn.ne'
  have hT0 : tile_size ≠ 0 := hT.ne'
  simp only [grid_cell_to_tile_coords_one, make_rois_tile_cell_relative_one,
    cell_center, gen_grid_for_tile, gen_grid, size_and_move_grid, tile_cell_w]
  rw [if_pos hw, if_pos hw]
  have hcw : tile_size / (grid_n : ℚ) ≠ 0 := div_ne_zero hT0 hn0
  refine Prod.ext ?_ (Prod.ext ?_ (Prod.ext ?_ ?_)) <;>
    · simp only
      field_simp
      try ring

/-- C1 witness: tile size 10, `grid_n = 2`, cell `(0, 1)`, ROI
`(cx, cy, w) = (6, 2, 4)` round-trips to corners `(0, 4, 4, 8)`. -/
theorem grid_roundtrip_recovers_corners_witness :
    grid_cell_to_tile_coords_one 2 10 0 1
      (make_rois_tile_cell_relative_one ⟨0, 0, 10, 10⟩ 2 0 1 ⟨6, 2, 4⟩) =
    (0, 4, 4, 8) := by
  have h := grid_roundtrip_recovers_corners 10 2 0 1 ⟨6, 2, 4⟩
    (by norm_num) (by norm_num) (by norm_num)
  rw [h]
  norm_num

/-! ## argmax / argmin lemmas for the selection rounds -/

theorem argmaxIdx_lt_length : ∀ l : List ℚ, l ≠ [] → argmaxIdx l < l.length
  | [x], _ => by simp [argmaxIdx]
  | x :: y :: xs, _ => by
    have ih := argmaxIdx_lt_length (y :: xs) (by simp)
    simp only [argmaxIdx]
    split
    · exact Nat.succ_lt_succ ih
    · simp

theorem argminIdx_lt_length : ∀ l : List ℚ, l ≠ [] → argminIdx l < l.length
  | [x], _ => by simp [argminIdx]
  | x :: y :: xs, _ => by
    have ih := argminIdx_lt_length (y :: xs) (by simp)
    simp only [argminIdx]
    split
    · exact Nat.succ_lt_succ ih
    · simp

theorem argmaxIdx_is_max : ∀ (l : List ℚ) (k : ℕ), k < l.length →
    l.getD k 0 ≤ l.getD (argmaxIdx l) 0
  | [x], k, hk => by
    rcases k with _ | k
    · simp [argmaxIdx]
    · simp at hk
  | x :: y :: xs, k, hk => by
    have ih := fun (k : ℕ) (hk : k < (y :: xs).length) => argmaxIdx_is_max (y :: xs) k hk
    simp only [argmaxIdx]
    split
    · rename_i hlt
      rw [List.getD_cons_succ]
      rcases k with _ | k
      · rw [List.getD_cons_zero]
        exact hlt.le
      · rw [List.getD_cons_succ]
        exact ih k (by simpa using hk)
    · rename_i hge
      rw [List.getD_cons_zero]
      rcases k with _ | k
      · rw [List.getD_cons_zero]
      · rw [List.getD_cons_succ]
        exact le_trans (ih k (by simpa using hk)) (not_lt.mp hge)

theorem argminIdx_is_min : ∀ (l : List ℚ) (k : ℕ), k < l.length →
    l.getD (argminIdx l) 0 ≤ l.getD k 0
  | [x], k, hk => by
    rcases k with _ | k
    · simp [argminIdx]
    · simp at hk
  | x :: y :: xs, k, hk => by
    have ih := fun (k : ℕ) (hk : k < (y :: xs).length) => argminIdx_is_min (y :: xs) k hk
    simp only [argminIdx]
    split
    · rename_i hlt
      rw [List.getD_cons_succ]
      rcases k with _ | k
      · rw [List.getD_cons_zero]
        exact hlt.le
      · rw [List.getD_cons_succ]
        exact ih k (by simpa using hk)
    · rename_i hge
      rw [List.getD_cons_zero]
      rcases k with _ | k
      · rw [List.getD_cons_zero]
      · rw [List.getD_cons_succ]
        exact le_trans (not_lt.mp hge) (ih k (by simpa using hk))

/-! ## Mask and score helper lemmas -/

theorem getD_set_same (l : List Bool) (i : ℕ) :
    (l.set i false).getD i false = false := by
  by_cases h : i < l.length
  · rw [List.getD_eq_getElem _ _ (by simpa using h)]
    simp [List.getElem_set_self]
  · rw [List.getD_eq_default _ _ (by simpa using not_lt.mp h)]

theorem getD_set_other (l : List Bool) (i k : ℕ) (h : k ≠ i) :
    (l.set i false).getD k false = l.getD k false := by
  simp [List.getD_eq_getElem?_getD, List.getElem?_set_ne (Ne.symm h)]

theorem cell_scores_length (comp : Comparator) (gcx gcy : ℚ) (rois : List CRoi)
    (mask : List Bool) :
    (cell_scores comp gcx gcy rois mask).length = min mask.length rois.length := by
  cases comp <;> simp [cell_scores]

theorem cell_scores_largest_getD (gcx gcy : ℚ) (rois : List CRoi)
    (mask : List Bool) (k : ℕ) (hk : k < mask.length) (hk2 : k < rois.length) :
    (cell_scores .largest_w gcx gcy rois mask).getD k 0 =
      (if mask.getD k false then (1 : ℚ) else 0) * (rois.getD k ⟨0, 0, 0⟩).w := by
  have hkz : k < (mask.zip rois).length := by
    simp [List.length_zip]
    omega
  have hks : k < (cell_scores .largest_w gcx gcy rois mask).length := by
    rw [cell_scores_length]
    omega
  rw [List.getD_eq_getElem _ _ hks, List.getD_eq_getElem _ _ hk,
    List.getD_eq_getElem _ _ hk2]
  simp [cell_scores, List.getElem_map, List.getElem_zip]

theorem cell_scores_closest_getD (gcx gcy : ℚ) (rois : List CRoi)
    (mask : List Bool) (k : ℕ) (hk : k < mask.length) (hk2 : k < rois.length) :
    (cell_scores .closest_to_center gcx gcy rois mask).getD k 0 =
      if mask.getD k false then
        |(rois.getD k ⟨0, 0, 0⟩).cx - gcx| + |(rois.getD k ⟨0, 0, 0⟩).cy - gcy|
      else 1000 := by
  have hkz : k < (mask.zip rois).length := by
    simp [List.length_zip]
    omega
  have hks : k < (cell_scores .closest_to_center gcx gcy rois mask).length := by
    rw [cell_scores_length]
    omega
  rw [List.getD_eq_getElem _ _ hks, List.getD_eq_getElem _ _ hk,
    List.getD_eq_getElem _ _ hk2]
  simp [cell_scores, List.getElem_map, List.getElem_zip]

/-- Every round recorded by `selection_rounds` pairs its mask with the
winning index computed from that mask. -/
theorem selection_rounds_idx (comp : Comparator) (gcx gcy : ℚ)
    (rois : List CRoi) : ∀ (n : ℕ) (mask : List Bool) (m : List Bool) (idx : ℕ),
    (m, idx) ∈ selection_rounds comp gcx gcy rois mask n →
    idx = cell_round comp gcx gcy rois m
  | 0, mask, m, idx, h => by simp [selection_rounds] at h
  | n + 1, mask, m, idx, h => by
    simp only [selection_rounds, List.mem_cons] at h
    rcases h with h | h
    · obtain ⟨h1, h2⟩ := Prod.mk.injEq .. ▸ h
      rw [Prod.mk.injEq] at h
      rw [h.2, h.1]
    · exact selection_rounds_idx comp gcx gcy rois n _ m idx h

/-- Every round mask has the length of the initial mask. -/
theorem selection_rounds_length (comp : Comparator) (gcx gcy : ℚ)
    (rois : List CRoi) : ∀ (n : ℕ) (mask : List Bool) (m : List Bool) (idx : ℕ),
    (m, idx) ∈ selection_rounds comp gcx gcy rois mask n →
    m.length = mask.length
  | 0, mask, m, idx, h => by simp [selection_rounds] at h
  | n + 1, mask, m, idx, h => by
    simp only [selection_rounds, List.mem_cons] at h
    rcases h with h | h
    · rw [Prod.mk.injEq] at h
      rw [h.1]
    · rw [selection_rounds_length comp gcx gcy rois n _ m idx h]
      exact List.length_set ..

/-- Round masks only shrink: an entry true in a later round's mask was
true in the initial mask. -/
theorem selection_rounds_mono (comp : Comparator) (gcx gcy : ℚ)
    (rois : List CRoi) : ∀ (n : ℕ) (mask : List Bool) (m : List Bool)
    (idx k : ℕ), (m, idx) ∈ selection_rounds comp gcx gcy rois mask n →
    m.getD k false = true → mask.getD k false = true
  | 0, mask, m, idx, k, h, _ => by simp [selection_rounds] at h
  | n + 1, mask, m, idx, k, h, hk => by
    simp only [selection_rounds, List.mem_cons] at h
    rcases h with h | h
    · rw [Prod.mk.injEq] at h
      rw [← h.1]
      exact hk
    · have h2 := selection_rounds_mono comp gcx gcy rois n _ m idx k h hk
      by_cases hke : k = cell_round comp gcx gcy rois mask
      · rw [hke] at h2
        rw [getD_set_same] at h2
        exact absurd h2 (by simp)
      · rwa [getD_set_other _ _ _ hke] at h2

/-- If some masked-in candidate lies at L1 distance less than the
sentinel `1000` from the cell center, the `closest_to_center` argmin
picks a masked-in candidate. -/
theorem cell_round_closest_in_mask (gcx gcy : ℚ) (rois : List CRoi)
    (mask : List Bool) (hlen : mask.length = rois.length)
    (h : ∃ k, k < rois.length ∧ mask.getD k false = true ∧
      |(rois.getD k ⟨0, 0, 0⟩).cx - gcx| + |(rois.getD k ⟨0, 0, 0⟩).cy - gcy| < 1000) :
    mask.getD (cell_round .closest_to_center gcx gcy rois mask) false = true := by
  obtain ⟨k, hk, hmk, hdk⟩ := h
  have hslen : (cell_scores .closest_to_center gcx gcy rois mask).length
      = rois.length := by
    rw [cell_scores_length, hlen, min_self]
  have hks : k < (cell_scores .closest_to_center gcx gcy rois mask).length := by
    omega
  have hsk : (cell_scores .closest_to_center gcx gcy rois mask).getD k 0 < 1000 := by
    rw [cell_scores_closest_getD gcx gcy rois mask k (by omega) hk, if_pos hmk]
    exact hdk
  have hne : cell_scores .closest_to_center gcx gcy rois mask ≠ [] := by
    intro hnil
    rw [hnil] at hks
    simp at hks
  have hi : argminIdx (cell_scores .closest_to_center gcx gcy rois mask)
      < (cell_scores .closest_to_center gcx gcy rois mask).length :=
    argminIdx_lt_length _ hne
  have hmin := argminIdx_is_min (cell_scores .closest_to_center gcx gcy rois mask) k hks
  by_contra hcon
  have hcf : mask.getD (cell_round .closest_to_center gcx gcy rois mask) false
      = false := by
    revert hcon
    cases mask.getD (cell_round .closest_to_center gcx gcy rois mask) false <;> simp
  have hval : (cell_scores .closest_to_center gcx gcy rois mask).getD
      (cell_round .closest_to_center gcx gcy rois mask) 0 = 1000 := by
    rw [cell_scores_closest_getD gcx gcy rois mask _ (by
        have : cell_round .closest_to_center gcx gcy rois mask =
          argminIdx (cell_scores .closest_to_center gcx gcy rois mask) := rfl
        omega)
      (by
        have : cell_round .closest_to_center gcx gcy rois mask =
          argminIdx (cell_scores .closest_to_center gcx gcy rois mask) := rfl
        omega)]
    rw [hcf]
    simp
  have : (cell_scores .closest_to_center gcx gcy rois mask).getD
      (cell_round .closest_to_center gcx gcy rois mask) 0 ≤
      (cell_scores .closest_to_center gcx gcy rois mask).getD k 0 := hmin
  rw [hval] at this
  linarith

/-- C3 counterexample: on tile `(0,0,4000,4000)` with `grid_n = 1` the
cell center is `(2000, 2000)` and `cell_w = 4000`. The contained ROI at
center `(100, 100)` has L1 distance `3800 > 1000`, so the argmin picks
the masked-out sentinel entry (index 1, the ROI centered at
`(5000, 5000)`, outside the tile) even though the cell contains a real
candidate: the extraction round returns the non-contained ROI. -/
theorem closest_sentinel_overrides_real_cex :
    cell_mask ⟨0, 0, 4000, 4000⟩ [⟨99, 99, 101, 101⟩, ⟨4999, 4999, 5001, 5001⟩]
      1 1 0 0 = [true, false] ∧
    cell_rounds ⟨0, 0, 4000, 4000⟩ [⟨99, 99, 101, 101⟩, ⟨4999, 4999, 5001, 5001⟩]
      1 1 .closest_to_center 1 0 0 = [([true, false], 1)] ∧
    [true, false].getD 1 false = false ∧
    n_largest_rois_in_cell ⟨0, 0, 4000, 4000⟩
      [⟨99, 99, 101, 101⟩, ⟨4999, 4999, 5001, 5001⟩] 1 1 .closest_to_center 1 0 0 =
      [⟨5000, 5000, 2⟩] := by
  refine ⟨?_, ?_, by simp, ?_⟩ <;>
    norm_num [cell_mask, cell_rounds, cell_center, n_largest_rois_in_cell,
      selection_rounds, cell_round, cell_scores, argminIdx, cxyw_rois,
      center_in_grid_cell_one, gen_grid_for_tile, gen_grid, size_and_move_grid,
      tile_cell_w, List.getD, abs]

/-- C3 (amended): in `n_largest_rois_in_cell` with
`comparator = closest_to_center`, at any extraction round of any cell,
if the round's mask contains at least one ROI whose L1 distance to the
cell center is below the sentinel `1000`, then the argmin winner is a
contained (masked-in) ROI. (Without the distance bound the sentinel can
win, see the counterexample.) -/
theorem closest_winner_contained_of_near (tile : Rect) (rects : List Rect)
    (grid_n n : ℕ) (expand : ℚ) (i j : ℕ) (m : List Bool) (idx : ℕ)
    (hmem : (m, idx) ∈ cell_rounds tile rects grid_n n .closest_to_center expand i j)
    (h : ∃ k, k < rects.length ∧ m.getD k false = true ∧
      |((rects.map cxyw_rois).getD k ⟨0, 0, 0⟩).cx - (cell_center tile grid_n i j).1| +
      |((rects.map cxyw_rois).getD k ⟨0, 0, 0⟩).cy - (cell_center tile grid_n i j).2|
        < 1000) :
    m.getD idx false = true := by
  have hidx := selection_rounds_idx _ _ _ _ _ _ _ _ hmem
  have hlen := selection_rounds_length _ _ _ _ _ _ _ _ hmem
  have hmlen : (cell_mask tile rects grid_n expand i j).length = rects.length := by
    simp [cell_mask]
  rw [hidx]
  apply cell_round_closest_in_mask
  · rw [hlen, hmlen, List.length_map]
  · obtain ⟨k, hk, hmk, hdk⟩ := h
    exact ⟨k, by simpa using hk, hmk, hdk⟩

/-- C3 witness: a single contained ROI at distance 0 from the cell center
is picked by the argmin and is masked-in. -/
theorem closest_winner_contained_of_near_witness :
    [true].getD (0 : ℕ) false = true := by
  apply closest_winner_contained_of_near ⟨0, 0, 10, 10⟩ [⟨4, 4, 6, 6⟩] 1 1 1 0 0
  · show ([true], 0) ∈ cell_rounds ⟨0, 0, 10, 10⟩ [⟨4, 4, 6, 6⟩] 1 1
      .closest_to_center 1 0 0
    norm_num [cell_rounds, cell_center, selection_rounds, cell_round,
      cell_scores, argminIdx, cxyw_rois, cell_mask, center_in_grid_cell_one,
      gen_grid_for_tile, gen_grid, size_and_move_grid, tile_cell_w]
  · refine ⟨0, by norm_num, by simp, ?_⟩
    norm_num [cxyw_rois, cell_center, gen_grid_for_tile, gen_grid,
      size_and_move_grid, tile_cell_w]

/-- If every candidate ROI has strictly positive width, the `largest_w`
argmax of a round with a non-empty mask picks a masked-in candidate. -/
theorem cell_round_largest_in_mask (gcx gcy : ℚ) (rois : List CRoi)
    (mask : List Bool) (hlen : mask.length = rois.length)
    (hpos : ∀ r ∈ rois, 0 < r.w) (hany : mask.any id = true) :
    mask.getD (cell_round .largest_w gcx gcy rois mask) false = true := by
  obtain ⟨x, hxmem, hx⟩ := List.any_eq_true.mp hany
  obtain ⟨k, hk, hkx⟩ := List.mem_iff_getElem.mp hxmem
  have hmk : mask.getD k false = true := by
    rw [List.getD_eq_getElem _ _ hk, hkx]
    simpa using hx
  have hk2 : k < rois.length := by omega
  have hslen : (cell_scores .largest_w gcx gcy rois mask).length = rois.length := by
    rw [cell_scores_length, hlen, min_self]
  have hks : k < (cell_scores .largest_w gcx gcy rois mask).length := by omega
  have hwk : 0 < (rois.getD k ⟨0, 0, 0⟩).w := by
    apply hpos
    rw [List.getD_eq_getElem _ _ hk2]
    exact List.getElem_mem hk2
  have hsk : 0 < (cell_scores .largest_w gcx gcy rois mask).getD k 0 := by
    rw [cell_scores_largest_getD gcx gcy rois mask k (by omega) hk2, if_pos hmk,
      one_mul]
    exact hwk
  have hne : cell_scores .largest_w gcx gcy rois mask ≠ [] := by
    intro hnil
    rw [hnil] at hks
    simp at hks
  have haidx : cell_round .largest_w gcx gcy rois mask =
      argmaxIdx (cell_scores .largest_w gcx gcy rois mask) := rfl
  have hi : argmaxIdx (cell_scores .largest_w gcx gcy rois mask)
      < (cell_scores .largest_w gcx gcy rois mask).length :=
    argmaxIdx_lt_length _ hne
  have hmax := argmaxIdx_is_max (cell_scores .largest_w gcx gcy rois mask) k hks
  by_contra hcon
  have hcf : mask.getD (cell_round .largest_w gcx gcy rois mask) false = false := by
    revert hcon
    cases mask.getD (cell_round .largest_w gcx gcy rois mask) false <;> simp
  have hval : (cell_scores .largest_w gcx gcy rois mask).getD
      (cell_round .largest_w gcx gcy rois mask) 0 = 0 := by
    rw [cell_scores_largest_getD gcx gcy rois mask _ (by omega) (by omega), hcf]
    simp
  rw [haidx] at hval
  rw [hval] at hmax
  linarith

/-- Once a round's winner is consumed, every later round of the same cell
has it cleared from the mask (true for every comparator). -/
theorem selection_rounds_removed (comp : Comparator) (gcx gcy : ℚ)
    (rois : List CRoi) : ∀ (n : ℕ) (mask : List Bool),
    List.Pairwise (fun a b => b.1.getD a.2 false = false)
      (selection_rounds comp gcx gcy rois mask n)
  | 0, mask => by simp [selection_rounds]
  | n + 1, mask => by
    simp only [selection_rounds, List.pairwise_cons]
    constructor
    · intro b hb
      by_contra hcon
      have hb1 : b.1.getD (cell_round comp gcx gcy rois mask) false = true := by
        revert hcon
        cases b.1.getD (cell_round comp gcx gcy rois mask) false <;> simp
      have hmono := selection_rounds_mono comp gcx gcy rois n _ b.1 b.2 _
        (by simpa using hb) hb1
      rw [getD_set_same] at hmono
      exact absurd hmono (by simp)
    · exact selection_rounds_removed comp gcx gcy rois n _

/-- Under the positivity assumption, winners of rounds with a non-empty
mask are pairwise distinct across the `n` extraction rounds. -/
theorem selection_rounds_winners_nodup (gcx gcy : ℚ) (rois : List CRoi)
    (hpos : ∀ r ∈ rois, 0 < r.w) : ∀ (n : ℕ) (mask : List Bool),
    mask.length = rois.length →
    (((selection_rounds .largest_w gcx gcy rois mask n).filter
        (fun mi => mi.1.any id)).map (fun mi => mi.2)).Nodup
  | 0, mask, hlen => by simp [selection_rounds]
  | n + 1, mask, hlen => by
    simp only [selection_rounds]
    rw [List.filter_cons]
    split
    · simp only [List.map_cons, List.nodup_cons]
      constructor
      · intro hmem
        simp only [List.mem_map, List.mem_filter] at hmem
        obtain ⟨b, ⟨hbmem, hbany⟩, hbidx⟩ := hmem
        have hidx := selection_rounds_idx _ _ _ _ _ _ b.1 b.2 (by simpa using hbmem)
        have hblen := selection_rounds_length _ _ _ _ _ _ b.1 b.2
          (by simpa using hbmem)
        have hin : b.1.getD b.2 false = true := by
          rw [hidx]
          exact cell_round_largest_in_mask gcx gcy rois b.1
            (by rw [hblen, List.length_set, hlen]) hpos (by simpa using hbany)
        have hmono := selection_rounds_mono _ _ _ _ _ _ b.1 b.2 b.2
          (by simpa using hbmem) hin
        rw [hbidx, getD_set_same] at hmono
        exact absurd hmono (by simp)
      · exact selection_rounds_winners_nodup gcx gcy rois hpos n _
          (by rw [List.length_set]; exact hlen)
    · exact selection_rounds_winners_nodup gcx gcy rois hpos n _
        (by rw [List.length_set]; exact hlen)

/-- C9 counterexample: two zero-width candidate ROIs centered in the same
cell (`largest_w`, `n = 2`). Both rounds have a non-empty mask, both pick
index 0, and the round outputs are twice the non-sentinel roi
`(5, 5, 0) ≠ (0, 0, 0)`: a consumed index is selected again. -/
theorem selection_repeat_index_cex :
    cell_rounds ⟨0, 0, 10, 10⟩ [⟨5, 5, 5, 5⟩, ⟨6, 6, 6, 6⟩] 1 2 .largest_w 1 0 0 =
      [([true, true], 0), ([false, true], 0)] ∧
    n_largest_rois_in_cell ⟨0, 0, 10, 10⟩ [⟨5, 5, 5, 5⟩, ⟨6, 6, 6, 6⟩] 1 2
      .largest_w 1 0 0 = [⟨5, 5, 0⟩, ⟨5, 5, 0⟩] ∧
    (⟨5, 5, 0⟩ : CRoi) ≠ ⟨0, 0, 0⟩ := by
  refine ⟨?_, ?_, by simp⟩ <;>
    norm_num [cell_rounds, cell_center, n_largest_rois_in_cell,
      selection_rounds, cell_round, cell_scores, argmaxIdx, cxyw_rois,
      cell_mask, center_in_grid_cell_one, gen_grid_for_tile, gen_grid,
      size_and_move_grid, tile_cell_w, List.getD]

/-- C9 (amended): in `n_largest_rois_in_cell` with `comparator =
largest_w`, a selected winner is cleared from the containment mask for
all later rounds of the same cell (first conjunct, any widths), and when
every candidate rectangle has strictly positive width the winners of
rounds with a non-empty mask — exactly the rounds producing non-sentinel
outputs — have pairwise distinct ROI indices (second conjunct). With
zero-width candidates an index can repeat (see the counterexample). -/
theorem selection_winners_distinct (tile : Rect) (rects : List Rect)
    (grid_n n : ℕ) (expand : ℚ) (i j : ℕ)
    (hpos : ∀ r ∈ rects, 0 < r.x2 - r.x1) :
    List.Pairwise (fun a b => b.1.getD a.2 false = false)
      (cell_rounds tile rects grid_n n .largest_w expand i j) ∧
    (((cell_rounds tile rects grid_n n .largest_w expand i j).filter
        (fun mi => mi.1.any id)).map (fun mi => mi.2)).Nodup := by
  constructor
  · exact selection_rounds_removed _ _ _ _ _ _
  · apply selection_rounds_winners_nodup
    · intro r hr
      simp only [List.mem_map] at hr
      obtain ⟨r0, hr0, rfl⟩ := hr
      simpa [cxyw_rois] using hpos r0 hr0
    · simp [cell_mask]

/-- C9 witness: two positive-width ROIs in one cell give distinct winner
indices over two rounds. -/
theorem selection_winners_distinct_witness :
    (((cell_rounds ⟨0, 0, 10, 10⟩ [⟨0, 0, 10, 10⟩, ⟨2, 2, 7, 7⟩] 1 2
        .largest_w 1 0 0).filter
      (fun mi => mi.1.any id)).map (fun mi => mi.2)).Nodup :=
  (selection_winners_distinct ⟨0, 0, 10, 10⟩ [⟨0, 0, 10, 10⟩, ⟨2, 2, 7, 7⟩]
    1 2 1 0 0 (by intro r hr; fin_cases hr <;> norm_num)).2

/-- C6: three candidate ROIs of widths 10, 5, 20 all centered in the same
grid cell (containment mask all-true for that cell): with
`comparator = largest_w` the cell's output widths are `[20, 10]` for
`n = 2` and `[20, 10, 5]` for `n = 3` — winners in selection order,
decreasing under the comparator. -/
theorem top_k_order_widths (tile : Rect) (r1 r2 r3 : Rect) (grid_n i j : ℕ)
    (h1 : r1.x2 - r1.x1 = 10) (h2 : r2.x2 - r2.x1 = 5) (h3 : r3.x2 - r3.x1 = 20)
    (hmask : cell_mask tile [r1, r2, r3] grid_n 1 i j = [true, true, true]) :
    (n_largest_rois_in_cell tile [r1, r2, r3] grid_n 2 .largest_w 1 i j).map
      (fun r => r.w) = [20, 10] ∧
    (n_largest_rois_in_cell tile [r1, r2, r3] grid_n 3 .largest_w 1 i j).map
      (fun r => r.w) = [20, 10, 5] := by
  have hw1 : (cxyw_rois r1).w = 10 := h1
  have hw2 : (cxyw_rois r2).w = 5 := h2
  have hw3 : (cxyw_rois r3).w = 20 := h3
  constructor <;>
    · simp only [n_largest_rois_in_cell, cell_rounds, hmask, List.map_cons,
        List.map_nil]
      norm_num [selection_rounds, cell_round, cell_scores, argmaxIdx,
        hw1, hw2, hw3, List.getD]

/-- C6 witness: a concrete instantiation on tile `(0,0,30,30)`,
`grid_n = 1`, with the three ROIs centered at `(15, 15)`. -/
theorem top_k_order_widths_witness :
    (n_largest_rois_in_cell ⟨0, 0, 30, 30⟩
      [⟨10, 10, 20, 20⟩, ⟨25/2, 25/2, 35/2, 35/2⟩, ⟨5, 5, 25, 25⟩] 1 2
      .largest_w 1 0 0).map (fun r => r.w) = [20, 10] ∧
    (n_largest_rois_in_cell ⟨0, 0, 30, 30⟩
      [⟨10, 10, 20, 20⟩, ⟨25/2, 25/2, 35/2, 35/2⟩, ⟨5, 5, 25, 25⟩] 1 3
      .largest_w 1 0 0).map (fun r => r.w) = [20, 10, 5] := by
  apply top_k_order_widths ⟨0, 0, 30, 30⟩ ⟨10, 10, 20, 20⟩
    ⟨25/2, 25/2, 35/2, 35/2⟩ ⟨5, 5, 25, 25⟩ 1 0 0 (by norm_num) (by norm_num)
    (by norm_num)
  norm_num [cell_mask, cxyw_rois, center_in_grid_cell_one, gen_grid_for_tile,
    gen_grid, size_and_move_grid, tile_cell_w]

/-- With `expand = 1` the containment test is the half-open cell window
`[gx, gx + cw) × [gy, gy + cw)`. -/
theorem center_in_grid_cell_one_expand_one (gx gy cw : ℚ) (roi : CRoi) :
    center_in_grid_cell_one gx gy cw roi 1 = true ↔
      ((gx ≤ roi.cx ∧ roi.cx < gx + cw) ∧ (gy ≤ roi.cy ∧ roi.cy < gy + cw)) := by
  simp only [center_in_grid_cell_one, sub_self, zero_mul, sub_zero, one_mul,
    Bool.and_eq_true, decide_eq_true_eq, ge_iff_le]

/-- For `0 < cw` and `a ≤ t < a + N * cw` there is exactly one index
`k < N` with `k * cw + a ≤ t < k * cw + a + cw`. -/
theorem unique_cell_index (a t cw : ℚ) (N : ℕ) (hcw : 0 < cw)
    (h1 : a ≤ t) (h2 : t < a + (N : ℚ) * cw) :
    ∃! k : ℕ, k < N ∧ ((k : ℚ) * cw + a ≤ t ∧ t < ((k : ℚ) * cw + a) + cw) := by
  have ht0 : 0 ≤ (t - a) / cw := div_nonneg (by linarith) hcw.le
  have hkey : ∀ k : ℕ, (((k : ℚ) * cw + a ≤ t ∧ t < ((k : ℚ) * cw + a) + cw) ↔
      ⌊(t - a) / cw⌋₊ = k) := by
    intro k
    have hexp : ((k : ℚ) + 1) * cw = (k : ℚ) * cw + cw := by ring
    rw [Nat.floor_eq_iff ht0]
    constructor
    · rintro ⟨hl, hr⟩
      constructor
      · rw [le_div_iff₀ hcw]
        linarith
      · rw [div_lt_iff₀ hcw, hexp]
        linarith
    · rintro ⟨hl, hr⟩
      rw [le_div_iff₀ hcw] at hl
      rw [div_lt_iff₀ hcw, hexp] at hr
      constructor <;> linarith
  refine ⟨⌊(t - a) / cw⌋₊, ⟨?_, (hkey _).mpr rfl⟩, ?_⟩
  · rw [Nat.floor_lt ht0, div_lt_iff₀ hcw]
    linarith
  · rintro k ⟨hk, hcond⟩
    exact ((hkey k).mp hcond).symm

/-- C10: for a tile with positive width and `grid_n ≥ 1`, every ROI whose
center lies in the tile's half-open span (`x1 ≤ cx < x2`,
`y1 ≤ cy < y1 + (x2 - x1)`) is contained — under `center_in_grid_cell`
with `expand = 1` over the grid of `gen_grid_for_tile` — in exactly one
of the `grid_n × grid_n` cells: the half-open cell windows partition the
tile. -/
theorem center_in_exactly_one_cell (tile : Rect) (grid_n : ℕ) (roi : CRoi)
    (hgn : 0 < grid_n) (htile : tile.x1 < tile.x2)
    (hx1 : tile.x1 ≤ roi.cx) (hx2 : roi.cx < tile.x2)
    (hy1 : tile.y1 ≤ roi.cy)
    (hy2 : roi.cy < tile.y1 + (tile.x2 - tile.x1)) :
    ∃! p : ℕ × ℕ, p.1 < grid_n ∧ p.2 < grid_n ∧
      center_in_grid_cell_one (gen_grid_for_tile tile grid_n p.1 p.2).1
        (gen_grid_for_tile tile grid_n p.1 p.2).2 (tile_cell_w tile grid_n)
        roi 1 = true := by
  have hgn0 : (0 : ℚ) < (grid_n : ℚ) := by exact_mod_cast hgn
  have hcw : 0 < tile_cell_w tile grid_n := by
    rw [tile_cell_w]
    exact div_pos (by linarith) hgn0
  have hNcw : (grid_n : ℚ) * tile_cell_w tile grid_n = tile.x2 - tile.x1 := by
    rw [tile_cell_w]
    field_simp
  have hiff : ∀ i j : ℕ,
      (center_in_grid_cell_one (gen_grid_for_tile tile grid_n i j).1
        (gen_grid_for_tile tile grid_n i j).2 (tile_cell_w tile grid_n)
        roi 1 = true) ↔
      (((j : ℚ) * tile_cell_w tile grid_n + tile.x1 ≤ roi.cx ∧
        roi.cx < ((j : ℚ) * tile_cell_w tile grid_n + tile.x1) +
          tile_cell_w tile grid_n) ∧
       ((i : ℚ) * tile_cell_w tile grid_n + tile.y1 ≤ roi.cy ∧
        roi.cy < ((i : ℚ) * tile_cell_w tile grid_n + tile.y1) +
          tile_cell_w tile grid_n)) := by
    intro i j
    rw [center_in_grid_cell_one_expand_one]
    simp only [gen_grid_for_tile, gen_grid, size_and_move_grid]
  obtain ⟨jx, ⟨hjxN, hjxc⟩, hjxu⟩ :=
    unique_cell_index tile.x1 roi.cx (tile_cell_w tile grid_n) grid_n hcw hx1
      (by rw [hNcw]; linarith)
  obtain ⟨iy, ⟨hiyN, hiyc⟩, hiyu⟩ :=
    unique_cell_index tile.y1 roi.cy (tile_cell_w tile grid_n) grid_n hcw hy1
      (by rw [hNcw]; linarith)
  refine ⟨(iy, jx), ⟨hiyN, hjxN, (hiff iy jx).mpr ⟨hjxc, hiyc⟩⟩, ?_⟩
  rintro ⟨i, j⟩ ⟨hi, hj, hc⟩
  obtain ⟨hcx, hcy⟩ := (hiff i j).mp hc
  have hj' : j = jx := hjxu j ⟨hj, hcx⟩
  have hi' : i = iy := hiyu i ⟨hi, hcy⟩
  simp [hi', hj']

/-- C10 witness: on tile `(0,0,10,10)` with `grid_n = 2`, the ROI
centered at `(2, 7)` lies in exactly one cell (row 1, column 0). -/
theorem center_in_exactly_one_cell_witness :
    ∃! p : ℕ × ℕ, p.1 < 2 ∧ p.2 < 2 ∧
      center_in_grid_cell_one (gen_grid_for_tile ⟨0, 0, 10, 10⟩ 2 p.1 p.2).1
        (gen_grid_for_tile ⟨0, 0, 10, 10⟩ 2 p.1 p.2).2
        (tile_cell_w ⟨0, 0, 10, 10⟩ 2) ⟨2, 7, 1⟩ 1 = true :=
  center_in_exactly_one_cell ⟨0, 0, 10, 10⟩ 2 ⟨2, 7, 1⟩ (by norm_num)
    (by norm_num) (by norm_num) (by norm_num) (by norm_num) (by norm_num)
